import Mathlib

/-!
Shallow embedding of the git-split-branch repository (main.go, two revisions
of the same command: "variant 1", which copies file content through the go-git
source-tree snapshot and commits with the repository's configured identity and
the source commit's author time, and "variant 2", which shells out to
`git checkout <source> -- <file>` and commits with a hardcoded identity and
the current time).  External collaborators (go-git, the YAML library, the
editor process, the filesystem) are represented by oracles in environment
structures; every such oracle corresponds to one fallible call site in the
source.  Event traces record the externally visible actions the code performs,
in program order, so that claims about "what the run does" become statements
about the trace.
-/

namespace GitSplit

/-- The YAML-backed group record from main.go: a branch name plus the ordered
list of file paths destined for that branch. -/
structure BranchGroup where
  name : String
  files : List String
deriving DecidableEq, Repr

/-- The YAML-backed top-level record from main.go: the ordered list of branch
groups. -/
structure SplitConfig where
  branches : List BranchGroup
deriving DecidableEq, Repr

/-- The merkletrie change actions observed by the diff loop in main.go. -/
inductive GitAction where
  | insert
  | delete
  | modify
deriving DecidableEq, Repr

/-- One entry of the tree diff, as consumed by the collection loop: the
action together with the reported names of the new (`change.To.Name`) and
old (`change.From.Name`) sides; an absent side is reported as the empty
string, exactly as go-git does. -/
structure Change where
  action : GitAction
  toName : String
  fromName : String
deriving DecidableEq, Repr

/-- The file-name selection of the diff loop: `change.To.Name` when nonempty,
else `change.From.Name` when nonempty, else the empty string. -/
def changeFileName (c : Change) : String :=
  if c.toName ≠ "" then c.toName
  else if c.fromName ≠ "" then c.fromName
  else ""

/-- The diff collection loop of main.go: walk the changes, drop deletions,
select a file name for each surviving change, and append it to `diffFiles`
unless it is empty or already recorded in `fileSet`.  The Go code keeps
`fileSet` as a map; here it is the list of names recorded so far (the two
are kept in lockstep by the loop, only membership is ever queried). -/
def collectDiffFilesAux : List Change → List String → List String → List String
  | [], diffFiles, _ => diffFiles
  | c :: rest, diffFiles, fileSet =>
    if c.action = GitAction.delete then
      collectDiffFilesAux rest diffFiles fileSet
    else
      let fileName := changeFileName c
      if fileName ≠ "" ∧ fileName ∉ fileSet then
        collectDiffFilesAux rest (diffFiles ++ [fileName]) (fileSet ++ [fileName])
      else
        collectDiffFilesAux rest diffFiles fileSet

/-- The diff collector: the loop above started from empty accumulators. -/
def collectDiffFiles (changes : List Change) : List String :=
  collectDiffFilesAux changes [] []

/-- Declarative path selection, written from the spec's words: deletions
yield no path, otherwise the new side's path when nonempty, else the old
side's path when nonempty, else nothing.  Used as the specification side of
the diff-collector claim. -/
def specSurvivingPath (c : Change) : Option String :=
  if c.action = GitAction.delete then none
  else if c.toName ≠ "" then some c.toName
  else if c.fromName ≠ "" then some c.fromName
  else none

/-- Deduplication keeping the first occurrence, with an explicit set of
already-seen names: the specification side of the dedup behaviour. -/
def dedupFirstAux : List String → List String → List String
  | [], _ => []
  | x :: xs, seen =>
    if x ∈ seen then dedupFirstAux xs seen
    else x :: dedupFirstAux xs (x :: seen)

/-- Deduplication by exact path equality keeping the first occurrence. -/
def dedupFirst (l : List String) : List String :=
  dedupFirstAux l []

/-- The partition planner of main.go: `numBranches` is the Go expression
`(totalFiles + filesPerBranch - 1) / filesPerBranch`; group `i` (0-based)
is named `pfx_<i+1>` and carries the Go slice `diffFiles[start:end]` with
`start = i*filesPerBranch` and `end = min(start+filesPerBranch, totalFiles)`,
written here as take-then-drop. -/
def planGroups (diffFiles : List String) (filesPerBranch : Nat) (pfx : String) :
    List BranchGroup :=
  let totalFiles := diffFiles.length
  let numBranches := (totalFiles + filesPerBranch - 1) / filesPerBranch
  (List.range numBranches).map (fun i =>
    let start := i * filesPerBranch
    let endIdx := if start + filesPerBranch > totalFiles then totalFiles
      else start + filesPerBranch
    { name := pfx ++ "_" ++ toString (i + 1)
      files := (diffFiles.take endIdx).drop start })

/-- A line of the editable plan text, as its character sequence.  The plan
file's textual content is modelled as the list of its lines (the text split
at newline characters). -/
abbrev Line := List Char

/-- The comment marker recognised by the decoder. -/
def commentTag : Line := "#".data

/-- The top-level key line emitted by the encoder for `SplitConfig`. -/
def branchesTag : Line := "branches:".data

/-- The marker opening one group entry: a list item with the `name` field. -/
def nameTag : Line := "- name: ".data

/-- The `files` field line of one group entry. -/
def filesTag : Line := "  files:".data

/-- The marker of one file entry within a group's `files` list. -/
def itemTag : Line := "  - ".data

/-- The two comment lines plus blank line that main.go prepends (the
`description` string) before the encoded plan in the temporary file. -/
def descriptionLines : List Line :=
  ["# This YAML file contains the configuration for splitting branches.".data,
   "# Each branch group specifies a branch name and the list of files to be included in that branch.".data,
   "".data]

/-- Modelled from the spec: the serialization backend (the external YAML
library) is outside this repository, so its encoding of one `BranchGroup`
is modelled from the spec's editable text schema — a `- name:` item line
followed by a `files:` line and one `- ` item line per file, matching the
plan file shown in the repository README. -/
def encodeGroupLines (g : BranchGroup) : List Line :=
  (nameTag ++ g.name.data) :: filesTag :: g.files.map (fun f => itemTag ++ f.data)

/-- Modelled from the spec: the textual encoding of a whole plan — the
`branches:` key followed by every group's lines in order. -/
def encodePlanLines (cfg : SplitConfig) : List Line :=
  branchesTag :: (cfg.branches.map encodeGroupLines).flatten

/-- A line the decoder ignores: a comment line or a blank line. -/
def isIgnoredLine (l : Line) : Bool :=
  commentTag.isPrefixOf l || l.isEmpty

/-- Modelled from the spec: parse the consecutive file item lines of one
group, returning the file entries (with the item marker removed) and the
remaining lines. -/
def parseFileLines : List Line → List Line × List Line
  | [] => ([], [])
  | l :: ls =>
    if itemTag.isPrefixOf l then
      let r := parseFileLines ls
      (l.drop 4 :: r.1, r.2)
    else ([], l :: ls)

/-- Modelled from the spec: parse the group entries of the plan text.  The
recursion is bounded by a fuel argument; any fuel of at least the number of
groups suffices, and the decoder passes the number of lines, which is always
enough because every group entry spans at least one line. -/
def parseGroupLinesFuel : Nat → List Line → Option (List BranchGroup)
  | _, [] => some []
  | 0, _ :: _ => none
  | fuel + 1, l :: ls =>
    if nameTag.isPrefixOf l then
      match ls with
      | [] => none
      | l₂ :: ls₂ =>
        if l₂ = filesTag then
          match parseGroupLinesFuel fuel (parseFileLines ls₂).2 with
          | none => none
          | some gs =>
            some (⟨String.mk (l.drop 8), (parseFileLines ls₂).1.map String.mk⟩ :: gs)
        else none
    else none

/-- Modelled from the spec: the plan decoder.  Comment and blank lines are
ignored; an empty document decodes to the zero-valued plan (as the YAML
library leaves the target untouched); otherwise the text must open with the
`branches:` key, followed by well-formed group entries. -/
def decodePlanLines (lines : List Line) : Option SplitConfig :=
  let content := lines.filter (fun l => !(isIgnoredLine l))
  match content with
  | [] => some ⟨[]⟩
  | h :: t =>
    if h = branchesTag then
      match parseGroupLinesFuel t.length t with
      | none => none
      | some gs => some ⟨gs⟩
    else none

/-- Model of Go's `filepath.Dir` for slash-separated paths: everything up to
the final separator, or `.` when the path has no separator (path cleaning of
exotic inputs is not modelled; no claim depends on it). -/
def dirOf (path : String) : String :=
  let parts := path.splitOn "/"
  if parts.length ≤ 1 then "." else String.intercalate "/" parts.dropLast

/-- Go's `%v` rendering of a string slice, used in the commit message. -/
def goStringsRepr (fs : List String) : String :=
  "[" ++ String.intercalate " " fs ++ "]"

/-- The commit message built for a group: `Update diff files: <files>`. -/
def commitMessage (fs : List String) : String :=
  "Update diff files: " ++ goStringsRepr fs

/-- Externally visible actions performed by a run, recorded in program
order.  File contents are byte lists. -/
inductive Event where
  | createTmp
  | writeTmp (lines : List Line)
  | launchEditor
  | readTmp
  | removeTmp
  | checkoutBranch (branch : String)
  | createBranch (name : String) (hash : Nat)
  | warnMissing (file : String)
  | mkdirAll (dir : String)
  | writeFile (path : String) (content : List Nat)
  | stage (path : String)
  | commit (authorName : String) (authorEmail : String) (authorWhen : Int) (msg : String)
  | skipEmptyGroup (name : String)
  | skipCleanCommit (name : String)
  | gitCheckoutFile (branch : String) (path : String)
deriving DecidableEq, Repr

/-- Result of a run: the trace of performed actions, tagged with whether the
process reached a `log.Fatalf`/`os.Exit(1)` (`fatal`) or completed (`ok`). -/
inductive RunResult where
  | ok (trace : List Event)
  | fatal (trace : List Event)
deriving DecidableEq, Repr

/-- The trace of a run result. -/
def RunResult.trace : RunResult → List Event
  | .ok t => t
  | .fatal t => t

/-- Environment of the variant-1 branch materializer: the start-of-run
source tree snapshot, the repository session facts recorded before the loop
(config identity, source commit author time, original and base branch
names, base commit hash), and one success oracle per fallible external call
site.  Per-iteration oracles are indexed by the group's position in the
edited plan. -/
structure MEnv where
  sourceTree : String → Option (List Nat)
  headOk : Bool
  worktreeOk : Bool
  checkoutBaseOk : Nat → Bool
  createBranchOk : Nat → Bool
  mkdirOk : String → Bool
  readerOk : String → Bool
  readAllOk : String → Bool
  writeOk : String → Bool
  addOk : String → Bool
  statusOk : Nat → Bool
  statusClean : Nat → Bool
  commitOk : Nat → Bool
  restoreOk : Bool
  userName : String
  userEmail : String
  sourceAuthorWhen : Int
  currentBranch : String
  baseBranch : String
  baseCommitHash : Nat

/-- Variant 1, per-file body of the group loop: look the path up in the
source tree snapshot — absent means warn and continue; otherwise create the
parent directories, read the snapshot content (the second `sourceTree.File`
call returns the same entry as the existence check, so the lookup is matched
once), write it to the working tree, and stage it; each of these steps is
fatal on failure. -/
def processFile (env : MEnv) (file : String) : List Event × Bool :=
  match env.sourceTree file with
  | none => ([Event.warnMissing file], false)
  | some content =>
    let d := dirOf file
    if env.mkdirOk d = false then ([Event.mkdirAll d], true)
    else if env.readerOk file = false then ([Event.mkdirAll d], true)
    else if env.readAllOk file = false then ([Event.mkdirAll d], true)
    else if env.writeOk file = false then
      ([Event.mkdirAll d, Event.writeFile file content], true)
    else if env.addOk file = false then
      ([Event.mkdirAll d, Event.writeFile file content, Event.stage file], true)
    else ([Event.mkdirAll d, Event.writeFile file content, Event.stage file], false)

/-- Variant 1, the file loop of one group: process files in order, stopping
at the first fatal failure. -/
def processFiles (env : MEnv) : List String → List Event × Bool
  | [] => ([], false)
  | f :: fs =>
    let r := processFile env f
    if r.2 then (r.1, true)
    else
      let r₂ := processFiles env fs
      (r.1 ++ r₂.1, r₂.2)

/-- Variant 1, one iteration of the group loop: skip an empty group; else
checkout the base branch, create the group branch at the base commit, run
the file loop, query the status, and commit with the repository's configured
identity and the source commit's author time unless the status is clean. -/
def processGroup (env : MEnv) (i : Nat) (g : BranchGroup) : List Event × Bool :=
  if g.files.length = 0 then ([Event.skipEmptyGroup g.name], false)
  else if env.checkoutBaseOk i = false then
    ([Event.checkoutBranch env.baseBranch], true)
  else if env.createBranchOk i = false then
    ([Event.checkoutBranch env.baseBranch,
      Event.createBranch g.name env.baseCommitHash], true)
  else
    let pre := [Event.checkoutBranch env.baseBranch,
      Event.createBranch g.name env.baseCommitHash]
    let fr := processFiles env g.files
    if fr.2 then (pre ++ fr.1, true)
    else if env.statusOk i = false then (pre ++ fr.1, true)
    else if env.statusClean i then
      (pre ++ fr.1 ++ [Event.skipCleanCommit g.name], false)
    else
      let ev := Event.commit env.userName env.userEmail env.sourceAuthorWhen
        (commitMessage g.files)
      if env.commitOk i then (pre ++ fr.1 ++ [ev], false)
      else (pre ++ fr.1 ++ [ev], true)

/-- Variant 1, the group loop: process groups in plan order, stopping at the
first fatal failure (`log.Fatalf` exits the process at once). -/
def processGroups (env : MEnv) (i : Nat) : List BranchGroup → List Event × Bool
  | [] => ([], false)
  | g :: gs =>
    let r := processGroup env i g
    if r.2 then (r.1, true)
    else
      let r₂ := processGroups env (i + 1) gs
      (r.1 ++ r₂.1, r₂.2)

/-- Variant 1, the branch materializer: record HEAD and the worktree (each
fatal on failure), run the group loop, and — only when the loop finished
without a fatal error — attempt the final checkout of the originally
recorded branch; a fatal error inside the loop exits the process with no
further action. -/
def runMaterializer (env : MEnv) (groups : List BranchGroup) : RunResult :=
  if env.headOk = false then RunResult.fatal []
  else if env.worktreeOk = false then RunResult.fatal []
  else
    let r := processGroups env 0 groups
    if r.2 then RunResult.fatal r.1
    else if env.restoreOk then
      RunResult.ok (r.1 ++ [Event.checkoutBranch env.currentBranch])
    else RunResult.fatal (r.1 ++ [Event.checkoutBranch env.currentBranch])

/-- Environment of the variant-2 branch materializer.  `sourceTree` is still
the start-of-run snapshot (used for the existence check), but the file copy
shells out to `git checkout <sourceBranch> -- <file>`, whose effect is to
write the content of `file` at the current tip of `sourceBranch`; that live
lookup is `liveResolve`.  The repository's configured identity
(`configUserName`/`configUserEmail`) exists in the session but is never read
by this variant's commit, which hardcodes its author and uses the current
time `now`. -/
structure MEnv2 where
  sourceTree : String → Option (List Nat)
  liveResolve : String → String → Option (List Nat)
  srcBranch : String
  headOk : Bool
  worktreeOk : Bool
  checkoutBaseOk : Nat → Bool
  createBranchOk : Nat → Bool
  mkdirOk : String → Bool
  checkoutFileOk : String → Bool
  addOk : String → Bool
  statusOk : Nat → Bool
  statusClean : Nat → Bool
  commitOk : Nat → Bool
  restoreOk : Bool
  configUserName : String
  configUserEmail : String
  sourceAuthorWhen : Int
  now : Int
  currentBranch : String
  baseBranch : String
  baseCommitHash : Nat

/-- Variant 2, per-file body: existence check against the snapshot (warn and
continue when absent), create directories, then run the
`git checkout <source> -- <file>` subprocess, which succeeds only when the
live source branch tip has the file and the process exits zero — on success
the working tree receives the live tip content, which it then stages. -/
def processFileV2 (env : MEnv2) (file : String) : List Event × Bool :=
  match env.sourceTree file with
  | none => ([Event.warnMissing file], false)
  | some _ =>
    let d := dirOf file
    if env.mkdirOk d = false then ([Event.mkdirAll d], true)
    else
      match env.liveResolve env.srcBranch file with
      | none => ([Event.mkdirAll d, Event.gitCheckoutFile env.srcBranch file], true)
      | some content =>
        if env.checkoutFileOk file = false then
          ([Event.mkdirAll d, Event.gitCheckoutFile env.srcBranch file], true)
        else if env.addOk file = false then
          ([Event.mkdirAll d, Event.gitCheckoutFile env.srcBranch file,
            Event.writeFile file content, Event.stage file], true)
        else
          ([Event.mkdirAll d, Event.gitCheckoutFile env.srcBranch file,
            Event.writeFile file content, Event.stage file], false)

/-- Variant 2, the file loop of one group. -/
def processFilesV2 (env : MEnv2) : List String → List Event × Bool
  | [] => ([], false)
  | f :: fs =>
    let r := processFileV2 env f
    if r.2 then (r.1, true)
    else
      let r₂ := processFilesV2 env fs
      (r.1 ++ r₂.1, r₂.2)

/-- Variant 2, one iteration of the group loop: identical control flow to
variant 1, but the commit's author is the hardcoded `go-git-user` identity
and its timestamp is the current time. -/
def processGroupV2 (env : MEnv2) (i : Nat) (g : BranchGroup) : List Event × Bool :=
  if g.files.length = 0 then ([Event.skipEmptyGroup g.name], false)
  else if env.checkoutBaseOk i = false then
    ([Event.checkoutBranch env.baseBranch], true)
  else if env.createBranchOk i = false then
    ([Event.checkoutBranch env.baseBranch,
      Event.createBranch g.name env.baseCommitHash], true)
  else
    let pre := [Event.checkoutBranch env.baseBranch,
      Event.createBranch g.name env.baseCommitHash]
    let fr := processFilesV2 env g.files
    if fr.2 then (pre ++ fr.1, true)
    else if env.statusOk i = false then (pre ++ fr.1, true)
    else if env.statusClean i then
      (pre ++ fr.1 ++ [Event.skipCleanCommit g.name], false)
    else
      let ev := Event.commit "go-git-user" "go-git@example.com" env.now
        (commitMessage g.files)
      if env.commitOk i then (pre ++ fr.1 ++ [ev], false)
      else (pre ++ fr.1 ++ [ev], true)

/-- Variant 2, the group loop. -/
def processGroupsV2 (env : MEnv2) (i : Nat) : List BranchGroup → List Event × Bool
  | [] => ([], false)
  | g :: gs =>
    let r := processGroupV2 env i g
    if r.2 then (r.1, true)
    else
      let r₂ := processGroupsV2 env (i + 1) gs
      (r.1 ++ r₂.1, r₂.2)

/-- Variant 2, the branch materializer. -/
def runMaterializerV2 (env : MEnv2) (groups : List BranchGroup) : RunResult :=
  if env.headOk = false then RunResult.fatal []
  else if env.worktreeOk = false then RunResult.fatal []
  else
    let r := processGroupsV2 env 0 groups
    if r.2 then RunResult.fatal r.1
    else if env.restoreOk then
      RunResult.ok (r.1 ++ [Event.checkoutBranch env.currentBranch])
    else RunResult.fatal (r.1 ++ [Event.checkoutBranch env.currentBranch])

/-- Environment of the plan editor bridge: success oracles for the temp-file
creation and write, the editor subprocess, the content read back after the
editor exits (`none` models a failed `os.ReadFile`), and the result of the
`os.Remove` call — whose value the code discards. -/
structure EditorEnv where
  createTmpOk : Bool
  writeTmpOk : Bool
  editorRunOk : Bool
  readResult : Option (List Line)
  removeOk : Bool

/-- The plan editor bridge of main.go: create and fill the temporary file
(each fatal on failure), run the editor to completion (fatal on failure),
read the file back — a failed read is fatal and reaches no further
statement — and only after a successful read call `os.Remove`, ignoring its
result.  Returns the trace and the read-back lines (`none` = fatal). -/
def editorBridge (env : EditorEnv) (lines : List Line) :
    List Event × Option (List Line) :=
  if env.createTmpOk = false then ([Event.createTmp], none)
  else if env.writeTmpOk = false then
    ([Event.createTmp, Event.writeTmp lines], none)
  else if env.editorRunOk = false then
    ([Event.createTmp, Event.writeTmp lines, Event.launchEditor], none)
  else
    match env.readResult with
    | none =>
      ([Event.createTmp, Event.writeTmp lines, Event.launchEditor,
        Event.readTmp], none)
    | some edited =>
      ([Event.createTmp, Event.writeTmp lines, Event.launchEditor,
        Event.readTmp, Event.removeTmp], some edited)

/-- Environment of the whole post-snapshot pipeline of variant 1: the diff
changes reported for the two snapshotted trees, the group size and branch
name prefix flags, and the editor and materializer environments. -/
structure PipelineEnv where
  changes : List Change
  filesPerBranch : Nat
  pfx : String
  eenv : EditorEnv
  menv : MEnv

/-- Variant 1's run from the point where both tree snapshots are resolved:
collect the diff files and return successfully at once when there are none
(before any temporary file, editor, branch, or checkout activity); otherwise
plan the groups, write the described plan through the editor bridge, decode
the edited text (fatal when it fails to parse), and hand the decoded groups
to the branch materializer. -/
def runAfterSnapshots (env : PipelineEnv) : RunResult :=
  let diffFiles := collectDiffFiles env.changes
  if diffFiles.length = 0 then RunResult.ok []
  else
    let cfg : SplitConfig := ⟨planGroups diffFiles env.filesPerBranch env.pfx⟩
    let encoded := descriptionLines ++ encodePlanLines cfg
    let er := editorBridge env.eenv encoded
    match er.2 with
    | none => RunResult.fatal er.1
    | some edited =>
      match decodePlanLines edited with
      | none => RunResult.fatal er.1
      | some editedConfig =>
        match runMaterializer env.menv editedConfig.branches with
        | RunResult.ok mtr => RunResult.ok (er.1 ++ mtr)
        | RunResult.fatal mtr => RunResult.fatal (er.1 ++ mtr)

/-- A fully succeeding variant-1 session over a one-file source tree
(`a.txt` with content `[1]`), with a non-clean status so that every group
reaches the commit step; used to evaluate theorems at concrete inputs. -/
def okEnv : MEnv where
  sourceTree := fun f => if f = "a.txt" then some [1] else none
  headOk := true
  worktreeOk := true
  checkoutBaseOk := fun _ => true
  createBranchOk := fun _ => true
  mkdirOk := fun _ => true
  readerOk := fun _ => true
  readAllOk := fun _ => true
  writeOk := fun _ => true
  addOk := fun _ => true
  statusOk := fun _ => true
  statusClean := fun _ => false
  commitOk := fun _ => true
  restoreOk := true
  userName := "alice"
  userEmail := "alice@example.com"
  sourceAuthorWhen := 5
  currentBranch := "dev"
  baseBranch := "main"
  baseCommitHash := 7

/-- The same session with a failing checkout of the base branch. -/
def failBaseEnv : MEnv :=
  { okEnv with checkoutBaseOk := fun _ => false }

/-- A fully succeeding variant-2 session in which the source branch tip has
moved since the start-of-run snapshot: the snapshot holds `a.txt = [1]`
while the live tip of branch `src` holds `a.txt = [2]`.  The repository's
configured identity is `alice`, the snapshotted source commit's author time
is 5, and the current time is 99. -/
def liveDriftEnv2 : MEnv2 where
  sourceTree := fun f => if f = "a.txt" then some [1] else none
  liveResolve := fun b f => if b = "src" ∧ f = "a.txt" then some [2] else none
  srcBranch := "src"
  headOk := true
  worktreeOk := true
  checkoutBaseOk := fun _ => true
  createBranchOk := fun _ => true
  mkdirOk := fun _ => true
  checkoutFileOk := fun _ => true
  addOk := fun _ => true
  statusOk := fun _ => true
  statusClean := fun _ => false
  commitOk := fun _ => true
  restoreOk := true
  configUserName := "alice"
  configUserEmail := "alice@example.com"
  sourceAuthorWhen := 5
  now := 99
  currentBranch := "dev"
  baseBranch := "main"
  baseCommitHash := 7

/-- An editor-bridge session in which every step succeeds and the edited
file reads back as one empty line. -/
def okEEnv : EditorEnv where
  createTmpOk := true
  writeTmpOk := true
  editorRunOk := true
  readResult := some [[]]
  removeOk := true

/-- An editor-bridge session in which reading the edited file back fails. -/
def failReadEEnv : EditorEnv :=
  { okEEnv with readResult := none }

/-- A pipeline session whose reported tree changes are a single deletion, so
that the collected diff-file list is empty. -/
def emptyDiffPEnv : PipelineEnv where
  changes := [⟨GitAction.delete, "", "gone.txt"⟩]
  filesPerBranch := 2
  pfx := "split"
  eenv := okEEnv
  menv := okEnv

lemma dedupFirstAux_congr (l : List String) :
    ∀ s₁ s₂ : List String, (∀ x, x ∈ s₁ ↔ x ∈ s₂) →
      dedupFirstAux l s₁ = dedupFirstAux l s₂ := by
  induction l with
  | nil => intro s₁ s₂ _; rfl
  | cons x xs ih =>
    intro s₁ s₂ h
    by_cases hx : x ∈ s₁
    · simp only [dedupFirstAux, if_pos hx, if_pos ((h x).mp hx)]
      exact ih s₁ s₂ h
    · have hx₂ : x ∉ s₂ := fun hc => hx ((h x).mpr hc)
      simp only [dedupFirstAux, if_neg hx, if_neg hx₂]
      refine congrArg (x :: ·) (ih _ _ ?_)
      intro y
      simp only [List.mem_cons]
      exact or_congr Iff.rfl (h y)

lemma specSurvivingPath_eq (c : Change) :
    specSurvivingPath c =
      if c.action = GitAction.delete then none
      else if changeFileName c = "" then none
      else some (changeFileName c) := by
  unfold specSurvivingPath changeFileName
  by_cases hd : c.action = GitAction.delete
  · simp [hd]
  · by_cases ht : c.toName = ""
    · by_cases hf : c.fromName = "" <;> simp [hd, ht, hf]
    · simp [hd, ht]

lemma collectDiffFilesAux_spec (cs : List Change) :
    ∀ acc : List String,
      collectDiffFilesAux cs acc acc =
        acc ++ dedupFirstAux (cs.filterMap specSurvivingPath) acc := by
  induction cs with
  | nil => intro acc; simp [collectDiffFilesAux, dedupFirstAux]
  | cons c rest ih =>
    intro acc
    by_cases hd : c.action = GitAction.delete
    · simp only [collectDiffFilesAux, if_pos hd, List.filterMap_cons,
        specSurvivingPath_eq, if_pos hd]
      exact ih acc
    · by_cases he : changeFileName c = ""
      · have : ¬ (changeFileName c ≠ "" ∧ changeFileName c ∉ acc) := by
          intro h; exact h.1 he
        simp only [collectDiffFilesAux, if_neg hd, if_neg this,
          List.filterMap_cons, specSurvivingPath_eq, if_neg hd, if_pos he]
        exact ih acc
      · by_cases hm : changeFileName c ∈ acc
        · have : ¬ (changeFileName c ≠ "" ∧ changeFileName c ∉ acc) := by
            intro h; exact h.2 hm
          simp only [collectDiffFilesAux, if_neg hd, if_neg this,
            List.filterMap_cons, specSurvivingPath_eq, if_neg hd, if_neg he,
            dedupFirstAux, if_pos hm]
          exact ih acc
        · have hcond : changeFileName c ≠ "" ∧ changeFileName c ∉ acc := ⟨he, hm⟩
          simp only [collectDiffFilesAux, if_neg hd, if_pos hcond,
            List.filterMap_cons, specSurvivingPath_eq, if_neg hd, if_neg he,
            dedupFirstAux, if_neg hm]
          rw [ih (acc ++ [changeFileName c])]
          rw [dedupFirstAux_congr _ (acc ++ [changeFileName c]) (changeFileName c :: acc)
            (by intro y; simp [List.mem_append, List.mem_cons, or_comm])]
          simp

lemma mem_dedupFirstAux {l seen : List String} {x : String} :
    x ∈ dedupFirstAux l seen → x ∈ l := by
  induction l generalizing seen with
  | nil => intro h; simp [dedupFirstAux] at h
  | cons y ys ih =>
    intro h
    by_cases hy : y ∈ seen
    · simp only [dedupFirstAux, if_pos hy] at h
      exact List.mem_cons_of_mem _ (ih h)
    · simp only [dedupFirstAux, if_neg hy, List.mem_cons] at h
      rcases h with h | h
      · exact h ▸ List.mem_cons_self _ _
      · exact List.mem_cons_of_mem _ (ih h)

lemma dedupFirstAux_nodup (l : List String) :
    ∀ seen : List String, (dedupFirstAux l seen).Nodup ∧
      ∀ x ∈ dedupFirstAux l seen, x ∉ seen := by
  induction l with
  | nil => intro seen; simp [dedupFirstAux]
  | cons y ys ih =>
    intro seen
    by_cases hy : y ∈ seen
    · simp only [dedupFirstAux, if_pos hy]
      exact ih seen
    · simp only [dedupFirstAux, if_neg hy]
      obtain ⟨hnd, hns⟩ := ih (y :: seen)
      refine ⟨List.nodup_cons.mpr ⟨?_, hnd⟩, ?_⟩
      · intro hc
        exact hns y hc (List.mem_cons_self _ _)
      · intro x hx
        simp only [List.mem_cons] at hx
        rcases hx with rfl | hx
        · exact hy
        · intro hc
          exact hns x hx (List.mem_cons_of_mem _ hc)

/-- C3: the diff collector computes exactly the keep-first deduplication, in
report order, of the per-change surviving paths (deletions dropped; the new
side's path when nonempty, else the old side's); in particular its output
has no duplicate path and every output path stems from a non-deletion
change. -/
theorem spec_C3_diff_collector (changes : List Change) :
    collectDiffFiles changes = dedupFirst (changes.filterMap specSurvivingPath)
    ∧ (collectDiffFiles changes).Nodup
    ∧ ∀ p ∈ collectDiffFiles changes,
        ∃ c ∈ changes, c.action ≠ GitAction.delete ∧ specSurvivingPath c = some p := by
  have heq : collectDiffFiles changes
      = dedupFirst (changes.filterMap specSurvivingPath) := by
    simpa [collectDiffFiles, dedupFirst] using collectDiffFilesAux_spec changes []
  refine ⟨heq, ?_, ?_⟩
  · rw [heq]
    exact (dedupFirstAux_nodup _ _).1
  · intro p hp
    rw [heq] at hp
    have hl : p ∈ changes.filterMap specSurvivingPath := mem_dedupFirstAux hp
    rcases List.mem_filterMap.mp hl with ⟨c, hc, hsp⟩
    refine ⟨c, hc, ?_, hsp⟩
    intro hd
    rw [specSurvivingPath, if_pos hd] at hsp
    exact Option.noConfusion hsp

/-- Witness for C3 at the spec's scenario: a modification, a deletion and an
addition yield the two surviving paths, and the added path is traced back to
its non-deletion change. -/
theorem spec_C3_diff_collector_witness :
    ∃ c ∈ [Change.mk GitAction.modify "a.txt" "a.txt",
           Change.mk GitAction.delete "" "b.txt",
           Change.mk GitAction.insert "c.txt" ""],
      c.action ≠ GitAction.delete ∧ specSurvivingPath c = some "c.txt" :=
  (spec_C3_diff_collector
    [Change.mk GitAction.modify "a.txt" "a.txt",
     Change.mk GitAction.delete "" "b.txt",
     Change.mk GitAction.insert "c.txt" ""]).2.2 "c.txt" (by decide)

lemma ceil_mul_bounds {L n : Nat} (hn : 0 < n) :
    L ≤ n * ((L + n - 1) / n) ∧ n * ((L + n - 1) / n) < L + n := by
  have h1 := Nat.div_add_mod (L + n - 1) n
  have h2 := Nat.mod_lt (L + n - 1) hn
  omega

lemma planGroups_get (fs : List String) (n : Nat) (pfx : String) (i : Nat)
    (h : i < (planGroups fs n pfx).length) :
    (planGroups fs n pfx).get ⟨i, h⟩ =
      { name := pfx ++ "_" ++ toString (i + 1)
        files := (fs.take (if i * n + n > fs.length then fs.length
          else i * n + n)).drop (i * n) } := by
  simp [planGroups, List.get_eq_getElem]

lemma slice_eq_drop_take (fs : List String) (n i : Nat) :
    (fs.take (if i * n + n > fs.length then fs.length else i * n + n)).drop (i * n)
      = (fs.drop (i * n)).take n := by
  split
  case isTrue h =>
    rw [List.take_length]
    exact (List.take_of_length_le (by rw [List.length_drop]; omega)).symm
  case isFalse h =>
    rw [List.drop_take]
    congr 1
    omega

lemma endIdx_eq_min (L n i : Nat) :
    (if i * n + n > L then L else i * n + n) = min ((i + 1) * n) L := by
  have he : (i + 1) * n = i * n + n := by ring
  rw [he]
  split <;> omega

lemma join_take_slices_aux (n : Nat) (hn : 0 < n) (L : Nat) :
    ∀ fs : List String, fs.length = L →
      ((List.range ((fs.length + n - 1) / n)).map
        (fun i => (fs.drop (i * n)).take n)).flatten = fs := by
  induction L using Nat.strong_induction_on with
  | _ L ih =>
    intro fs hL
    cases fs with
    | nil =>
      have h0 : (0 + n - 1) / n = 0 := Nat.div_eq_of_lt (by omega)
      simp [h0]
    | cons a tl =>
      have hq : ((a :: tl).length + n - 1) / n = tl.length / n + 1 := by
        have harg : (a :: tl).length + n - 1 = tl.length + n := by
          simp only [List.length_cons]; omega
        rw [harg, Nat.add_div_right _ hn]
      have hq' : (((a :: tl).drop n).length + n - 1) / n = tl.length / n := by
        rw [List.length_drop]
        rcases le_or_lt n (tl.length + 1) with hle | hlt
        · congr 1
          simp only [List.length_cons]
          omega
        · have e1 : (a :: tl).length - n = 0 := by
            simp only [List.length_cons]; omega
          rw [e1]
          rw [Nat.div_eq_of_lt (by omega), Nat.div_eq_of_lt (by omega)]
      rw [hq, List.range_succ_eq_map]
      simp only [List.map_cons, List.map_map, List.flatten_cons]
      have hzero : ((a :: tl).drop (0 * n)).take n = (a :: tl).take n := by
        simp
      rw [hzero]
      have hshift : ((List.range (tl.length / n)).map
            ((fun i => ((a :: tl).drop (i * n)).take n) ∘ Nat.succ)).flatten
          = ((List.range ((((a :: tl).drop n).length + n - 1) / n)).map
            (fun i => (((a :: tl).drop n).drop (i * n)).take n)).flatten := by
        rw [hq']
        congr 1
        refine List.map_congr_left ?_
        intro i _
        simp only [Function.comp_apply, List.drop_drop]
        congr 2
        simp only [Nat.succ_eq_add_one]
        ring
      rw [hshift]
      rw [ih ((a :: tl).drop n).length ?_ ((a :: tl).drop n) rfl]
      · exact List.take_append_drop n (a :: tl)
      · subst hL
        rw [List.length_drop]
        simp only [List.length_cons]
        omega

lemma join_take_slices (n : Nat) (hn : 0 < n) (fs : List String) :
    ((List.range ((fs.length + n - 1) / n)).map
      (fun i => (fs.drop (i * n)).take n)).flatten = fs :=
  join_take_slices_aux n hn fs.length fs rfl

/-- C2: for a nonempty changed-file list and group size at least 1, the
planner produces exactly ceil(L/n) groups — the Go expression (L+n-1)/n,
pinned down as the ceiling by L ≤ count*n < L+n; group i carries exactly the
files at input positions [i*n, min((i+1)*n, L)) in input order; the
concatenation of all groups' file lists reconstructs the input; every group
except possibly the last has exactly n files; and group i is named
pfx_(i+1), 1-based. -/
theorem spec_C2_partition_planner (fs : List String) (n : Nat) (pfx : String)
    (hn : 1 ≤ n) (_hL : 1 ≤ fs.length) :
    (planGroups fs n pfx).length = (fs.length + n - 1) / n
    ∧ fs.length ≤ (planGroups fs n pfx).length * n
    ∧ (planGroups fs n pfx).length * n < fs.length + n
    ∧ (∀ i (h : i < (planGroups fs n pfx).length),
        ((planGroups fs n pfx).get ⟨i, h⟩).files
          = (fs.take (min ((i + 1) * n) fs.length)).drop (i * n))
    ∧ ((planGroups fs n pfx).map BranchGroup.files).flatten = fs
    ∧ (∀ i (h : i < (planGroups fs n pfx).length),
        i + 1 < (planGroups fs n pfx).length →
        ((planGroups fs n pfx).get ⟨i, h⟩).files.length = n)
    ∧ (∀ i (h : i < (planGroups fs n pfx).length),
        ((planGroups fs n pfx).get ⟨i, h⟩).name = pfx ++ "_" ++ toString (i + 1)) := by
  have hn0 : 0 < n := hn
  have hlen : (planGroups fs n pfx).length = (fs.length + n - 1) / n := by
    simp [planGroups]
  obtain ⟨hlow, hhigh⟩ := ceil_mul_bounds (L := fs.length) hn0
  refine ⟨hlen, ?_, ?_, ?_, ?_, ?_, ?_⟩
  · rw [hlen, Nat.mul_comm]; exact hlow
  · rw [hlen, Nat.mul_comm]; exact hhigh
  · intro i h
    rw [planGroups_get, ← endIdx_eq_min]
  · have hmapped : (planGroups fs n pfx).map BranchGroup.files
        = (List.range ((fs.length + n - 1) / n)).map
            (fun i => (fs.drop (i * n)).take n) := by
      simp only [planGroups, List.map_map]
      refine List.map_congr_left ?_
      intro i _
      simp only [Function.comp_apply]
      exact slice_eq_drop_take fs n i
    rw [hmapped]
    exact join_take_slices n hn0 fs
  · intro i h hlast
    rw [planGroups_get, slice_eq_drop_take]
    rw [List.length_take, List.length_drop]
    rw [hlen] at hlast
    have hmul : (i + 1) * n ≤ ((fs.length + n - 1) / n - 1) * n :=
      Nat.mul_le_mul_right n (by omega)
    have hsub : ((fs.length + n - 1) / n - 1) * n
        = ((fs.length + n - 1) / n) * n - 1 * n := Nat.sub_mul _ _ _
    have he : (i + 1) * n = i * n + n := by ring
    rw [Nat.mul_comm] at hlow hhigh
    omega
  · intro i h
    rw [planGroups_get]

/-- Witness for C2 at the spec's scenario: five files in groups of two give
a partition whose concatenation restores the input and whose group count
covers the list. -/
theorem spec_C2_partition_planner_witness :
    (["f1", "f2", "f3", "f4", "f5"] : List String).length
        ≤ (planGroups ["f1", "f2", "f3", "f4", "f5"] 2 "split").length * 2
    ∧ ((planGroups ["f1", "f2", "f3", "f4", "f5"] 2 "split").map
        BranchGroup.files).flatten = ["f1", "f2", "f3", "f4", "f5"] :=
  ⟨(spec_C2_partition_planner ["f1", "f2", "f3", "f4", "f5"] 2 "split"
      (by decide) (by decide)).2.1,
   (spec_C2_partition_planner ["f1", "f2", "f3", "f4", "f5"] 2 "split"
      (by decide) (by decide)).2.2.2.2.1⟩

lemma isPrefixOf_append_self (p x : List Char) : p.isPrefixOf (p ++ x) = true := by
  induction p with
  | nil => simp [List.isPrefixOf]
  | cons a as ih => simp [List.isPrefixOf, ih]

lemma string_mk_data (s : String) : String.mk s.data = s := rfl

lemma nameTag_drop (x : List Char) : (nameTag ++ x).drop 8 = x := rfl

lemma itemTag_drop (x : List Char) : (itemTag ++ x).drop 4 = x := rfl

lemma itemTag_not_prefix_nameTag (x : List Char) :
    itemTag.isPrefixOf (nameTag ++ x) = false := rfl

lemma isIgnoredLine_nameTag (x : List Char) :
    isIgnoredLine (nameTag ++ x) = false := rfl

lemma isIgnoredLine_itemTag (x : List Char) :
    isIgnoredLine (itemTag ++ x) = false := rfl

lemma isIgnoredLine_filesTag : isIgnoredLine filesTag = false := rfl

lemma isIgnoredLine_branchesTag : isIgnoredLine branchesTag = false := rfl

lemma filter_itemLines (files : List String) :
    (files.map (fun f => itemTag ++ f.data)).filter (fun l => !(isIgnoredLine l))
      = files.map (fun f => itemTag ++ f.data) := by
  induction files with
  | nil => rfl
  | cons f rest ih => simp [List.filter_cons, isIgnoredLine_itemTag, ih]

lemma filter_encodeGroups (gs : List BranchGroup) :
    ((gs.map encodeGroupLines).flatten).filter (fun l => !(isIgnoredLine l))
      = (gs.map encodeGroupLines).flatten := by
  induction gs with
  | nil => rfl
  | cons g rest ih =>
    simp only [List.map_cons, List.flatten_cons, List.filter_append, ih]
    congr 1
    simp only [encodeGroupLines, List.filter_cons, isIgnoredLine_nameTag,
      isIgnoredLine_filesTag, Bool.not_false, if_pos, filter_itemLines]

lemma parseFileLines_encoded (files : List String) (rest : List Line)
    (hrest : rest = [] ∨ ∃ s tail, rest = (nameTag ++ s) :: tail) :
    parseFileLines ((files.map (fun f => itemTag ++ f.data)) ++ rest)
      = (files.map String.data, rest) := by
  induction files with
  | nil =>
    rcases hrest with rfl | ⟨s, tail, rfl⟩
    · rfl
    · simp [parseFileLines, itemTag_not_prefix_nameTag]
  | cons f fs ih =>
    simp [parseFileLines, isPrefixOf_append_self, itemTag_drop, ih]

lemma parseGroupLinesFuel_encoded (gs : List BranchGroup) :
    ∀ fuel, gs.length ≤ fuel →
      parseGroupLinesFuel fuel ((gs.map encodeGroupLines).flatten) = some gs := by
  induction gs with
  | nil =>
    intro fuel _
    cases fuel <;> rfl
  | cons g rest ih =>
    intro fuel hfuel
    cases fuel with
    | zero => simp at hfuel
    | succ fu =>
      have hflat : ((g :: rest).map encodeGroupLines).flatten
          = (nameTag ++ g.name.data) :: filesTag ::
            ((g.files.map (fun f => itemTag ++ f.data))
              ++ (rest.map encodeGroupLines).flatten) := by
        simp [encodeGroupLines]
      have hrest : (rest.map encodeGroupLines).flatten = []
          ∨ ∃ s tail, (rest.map encodeGroupLines).flatten = (nameTag ++ s) :: tail := by
        cases rest with
        | nil => left; rfl
        | cons g₂ r₂ =>
          right
          refine ⟨g₂.name.data,
            filesTag :: ((g₂.files.map (fun f => itemTag ++ f.data))
              ++ ((r₂.map encodeGroupLines).flatten)), ?_⟩
          simp [encodeGroupLines]
      have hfiles : List.map String.mk (List.map String.data g.files) = g.files := by
        rw [List.map_map]
        have hid : (String.mk ∘ String.data) = id := funext fun s => string_mk_data s
        rw [hid, List.map_id]
      have hfu : rest.length ≤ fu := by
        simp only [List.length_cons] at hfuel
        omega
      rw [hflat]
      simp only [parseGroupLinesFuel, isPrefixOf_append_self, if_true,
        parseFileLines_encoded g.files _ hrest, ih fu hfu]
      simp [nameTag_drop, hfiles]

lemma length_le_flatten_length (gs : List BranchGroup) :
    gs.length ≤ ((gs.map encodeGroupLines).flatten).length := by
  induction gs with
  | nil => simp
  | cons g rest ih =>
    simp only [List.map_cons, List.flatten_cons, List.length_append,
      List.length_cons, encodeGroupLines]
    omega

lemma decode_encode (cfg : SplitConfig) (pre : List Line)
    (hpre : ∀ l ∈ pre, isIgnoredLine l = true) :
    decodePlanLines (pre ++ encodePlanLines cfg) = some cfg := by
  have h1 : (pre ++ encodePlanLines cfg).filter (fun l => !(isIgnoredLine l))
      = branchesTag :: (cfg.branches.map encodeGroupLines).flatten := by
    rw [List.filter_append]
    have hp : pre.filter (fun l => !(isIgnoredLine l)) = [] := by
      rw [List.filter_eq_nil_iff]
      intro l hl
      simp [hpre l hl]
    rw [hp, List.nil_append]
    simp only [encodePlanLines, List.filter_cons, isIgnoredLine_branchesTag,
      Bool.not_false, if_pos, filter_encodeGroups]
  unfold decodePlanLines
  rw [h1]
  simp only [if_pos rfl]
  rw [parseGroupLinesFuel_encoded cfg.branches _ (length_le_flatten_length cfg.branches)]
  simp

/-- C9: decoding the encoded textual form of any plan — with the comment
lines the code prepends (which the decoder ignores) or without them — yields
a plan with identical group names and identical file lists in the same
order. -/
theorem spec_C9_codec_roundtrip (cfg : SplitConfig) :
    decodePlanLines (descriptionLines ++ encodePlanLines cfg) = some cfg
    ∧ decodePlanLines (encodePlanLines cfg) = some cfg :=
  ⟨decode_encode cfg descriptionLines (by decide),
   by simpa using decode_encode cfg [] (by simp)⟩

lemma processFile_writeFile_mem {env : MEnv} {f p : String} {c : List Nat}
    (h : Event.writeFile p c ∈ (processFile env f).1) :
    env.sourceTree p = some c := by
  unfold processFile at h
  cases hs : env.sourceTree f with
  | none => rw [hs] at h; simp at h
  | some content =>
    rw [hs] at h
    cases h1 : env.mkdirOk (dirOf f) <;> cases h2 : env.readerOk f <;>
      cases h3 : env.readAllOk f <;> cases h4 : env.writeOk f <;>
      cases h5 : env.addOk f <;> simp_all

lemma processFiles_writeFile_mem {env : MEnv} {fs : List String} {p : String}
    {c : List Nat} (h : Event.writeFile p c ∈ (processFiles env fs).1) :
    env.sourceTree p = some c := by
  induction fs with
  | nil => simp [processFiles] at h
  | cons f rest ih =>
    simp only [processFiles] at h
    by_cases hf : (processFile env f).2 = true
    · rw [if_pos hf] at h
      exact processFile_writeFile_mem h
    · rw [if_neg hf] at h
      rcases List.mem_append.mp h with h' | h'
      · exact processFile_writeFile_mem h'
      · exact ih h'

lemma processGroup_trace_shape {env : MEnv} {i : Nat} {g : BranchGroup} {ev : Event}
    (h : ev ∈ (processGroup env i g).1) :
    ev ∈ (processFiles env g.files).1
    ∨ ev = Event.skipEmptyGroup g.name
    ∨ ev = Event.checkoutBranch env.baseBranch
    ∨ ev = Event.createBranch g.name env.baseCommitHash
    ∨ ev = Event.skipCleanCommit g.name
    ∨ ev = Event.commit env.userName env.userEmail env.sourceAuthorWhen
        (commitMessage g.files) := by
  unfold processGroup at h
  by_cases h0 : g.files.length = 0
  · rw [if_pos h0] at h
    simp at h
    tauto
  · rw [if_neg h0] at h
    by_cases h1 : env.checkoutBaseOk i = false
    · rw [if_pos h1] at h
      simp at h
      tauto
    · rw [if_neg h1] at h
      by_cases h2 : env.createBranchOk i = false
      · rw [if_pos h2] at h
        simp at h
        tauto
      · rw [if_neg h2] at h
        by_cases h3 : (processFiles env g.files).2 = true
        · rw [if_pos h3] at h
          simp at h
          tauto
        · rw [if_neg h3] at h
          by_cases h4 : env.statusOk i = false
          · rw [if_pos h4] at h
            simp at h
            tauto
          · rw [if_neg h4] at h
            by_cases h5 : env.statusClean i = true
            · rw [if_pos h5] at h
              simp at h
              tauto
            · rw [if_neg h5] at h
              by_cases h6 : env.commitOk i = true <;>
                [rw [if_pos h6] at h; rw [if_neg h6] at h] <;>
                · simp at h
                  tauto

lemma processGroups_trace_shape {env : MEnv} {gs : List BranchGroup} {i : Nat}
    {ev : Event} (h : ev ∈ (processGroups env i gs).1) :
    ∃ j g, g ∈ gs ∧ ev ∈ (processGroup env j g).1 := by
  induction gs generalizing i with
  | nil => simp [processGroups] at h
  | cons g rest ih =>
    simp only [processGroups] at h
    by_cases hf : (processGroup env i g).2 = true
    · rw [if_pos hf] at h
      exact ⟨i, g, List.mem_cons_self _ _, h⟩
    · rw [if_neg hf] at h
      rcases List.mem_append.mp h with h' | h'
      · exact ⟨i, g, List.mem_cons_self _ _, h'⟩
      · obtain ⟨j, g', hg', hm⟩ := ih h'
        exact ⟨j, g', List.mem_cons_of_mem _ hg', hm⟩

lemma runMaterializer_trace_shape {env : MEnv} {groups : List BranchGroup}
    {ev : Event} (h : ev ∈ (runMaterializer env groups).trace) :
    (∃ j g, g ∈ groups ∧ ev ∈ (processGroup env j g).1)
    ∨ ev = Event.checkoutBranch env.currentBranch := by
  unfold runMaterializer at h
  by_cases hh : env.headOk = false
  · rw [if_pos hh] at h
    simp [RunResult.trace] at h
  · rw [if_neg hh] at h
    by_cases hw : env.worktreeOk = false
    · rw [if_pos hw] at h
      simp [RunResult.trace] at h
    · rw [if_neg hw] at h
      by_cases hf : (processGroups env 0 groups).2 = true
      · rw [if_pos hf] at h
        simp only [RunResult.trace] at h
        exact Or.inl (processGroups_trace_shape h)
      · rw [if_neg hf] at h
        by_cases hr : env.restoreOk = true <;>
          [rw [if_pos hr] at h; rw [if_neg hr] at h] <;>
          · simp only [RunResult.trace] at h
            rcases List.mem_append.mp h with h' | h'
            · exact Or.inl (processGroups_trace_shape h')
            · simp at h'
              exact Or.inr h'

lemma processFileV2_writeFile_mem {env : MEnv2} {f p : String} {c : List Nat}
    (h : Event.writeFile p c ∈ (processFileV2 env f).1) :
    env.liveResolve env.srcBranch p = some c := by
  unfold processFileV2 at h
  cases hs : env.sourceTree f with
  | none => rw [hs] at h; simp at h
  | some content =>
    rw [hs] at h
    cases hl : env.liveResolve env.srcBranch f with
    | none =>
      cases h1 : env.mkdirOk (dirOf f) <;> simp_all
    | some live =>
      cases h1 : env.mkdirOk (dirOf f) <;> cases h2 : env.checkoutFileOk f <;>
        cases h3 : env.addOk f <;> simp_all

lemma processFilesV2_writeFile_mem {env : MEnv2} {fs : List String} {p : String}
    {c : List Nat} (h : Event.writeFile p c ∈ (processFilesV2 env fs).1) :
    env.liveResolve env.srcBranch p = some c := by
  induction fs with
  | nil => simp [processFilesV2] at h
  | cons f rest ih =>
    simp only [processFilesV2] at h
    by_cases hf : (processFileV2 env f).2 = true
    · rw [if_pos hf] at h
      exact processFileV2_writeFile_mem h
    · rw [if_neg hf] at h
      rcases List.mem_append.mp h with h' | h'
      · exact processFileV2_writeFile_mem h'
      · exact ih h'

lemma processGroupV2_trace_shape {env : MEnv2} {i : Nat} {g : BranchGroup} {ev : Event}
    (h : ev ∈ (processGroupV2 env i g).1) :
    ev ∈ (processFilesV2 env g.files).1
    ∨ ev = Event.skipEmptyGroup g.name
    ∨ ev = Event.checkoutBranch env.baseBranch
    ∨ ev = Event.createBranch g.name env.baseCommitHash
    ∨ ev = Event.skipCleanCommit g.name
    ∨ ev = Event.commit "go-git-user" "go-git@example.com" env.now
        (commitMessage g.files) := by
  unfold processGroupV2 at h
  by_cases h0 : g.files.length = 0
  · rw [if_pos h0] at h
    simp at h
    tauto
  · rw [if_neg h0] at h
    by_cases h1 : env.checkoutBaseOk i = false
    · rw [if_pos h1] at h
      simp at h
      tauto
    · rw [if_neg h1] at h
      by_cases h2 : env.createBranchOk i = false
      · rw [if_pos h2] at h
        simp at h
        tauto
      · rw [if_neg h2] at h
        by_cases h3 : (processFilesV2 env g.files).2 = true
        · rw [if_pos h3] at h
          simp at h
          tauto
        · rw [if_neg h3] at h
          by_cases h4 : env.statusOk i = false
          · rw [if_pos h4] at h
            simp at h
            tauto
          · rw [if_neg h4] at h
            by_cases h5 : env.statusClean i = true
            · rw [if_pos h5] at h
              simp at h
              tauto
            · rw [if_neg h5] at h
              by_cases h6 : env.commitOk i = true <;>
                [rw [if_pos h6] at h; rw [if_neg h6] at h] <;>
                · simp at h
                  tauto

lemma processGroupsV2_trace_shape {env : MEnv2} {gs : List BranchGroup} {i : Nat}
    {ev : Event} (h : ev ∈ (processGroupsV2 env i gs).1) :
    ∃ j g, g ∈ gs ∧ ev ∈ (processGroupV2 env j g).1 := by
  induction gs generalizing i with
  | nil => simp [processGroupsV2] at h
  | cons g rest ih =>
    simp only [processGroupsV2] at h
    by_cases hf : (processGroupV2 env i g).2 = true
    · rw [if_pos hf] at h
      exact ⟨i, g, List.mem_cons_self _ _, h⟩
    · rw [if_neg hf] at h
      rcases List.mem_append.mp h with h' | h'
      · exact ⟨i, g, List.mem_cons_self _ _, h'⟩
      · obtain ⟨j, g', hg', hm⟩ := ih h'
        exact ⟨j, g', List.mem_cons_of_mem _ hg', hm⟩

lemma runMaterializerV2_trace_shape {env : MEnv2} {groups : List BranchGroup}
    {ev : Event} (h : ev ∈ (runMaterializerV2 env groups).trace) :
    (∃ j g, g ∈ groups ∧ ev ∈ (processGroupV2 env j g).1)
    ∨ ev = Event.checkoutBranch env.currentBranch := by
  unfold runMaterializerV2 at h
  by_cases hh : env.headOk = false
  · rw [if_pos hh] at h
    simp [RunResult.trace] at h
  · rw [if_neg hh] at h
    by_cases hw : env.worktreeOk = false
    · rw [if_pos hw] at h
      simp [RunResult.trace] at h
    · rw [if_neg hw] at h
      by_cases hf : (processGroupsV2 env 0 groups).2 = true
      · rw [if_pos hf] at h
        simp only [RunResult.trace] at h
        exact Or.inl (processGroupsV2_trace_shape h)
      · rw [if_neg hf] at h
        by_cases hr : env.restoreOk = true <;>
          [rw [if_pos hr] at h; rw [if_neg hr] at h] <;>
          · simp only [RunResult.trace] at h
            rcases List.mem_append.mp h with h' | h'
            · exact Or.inl (processGroupsV2_trace_shape h')
            · simp at h'
              exact Or.inr h'

lemma processFile_no_commit {env : MEnv} {f a e m : String} {w : Int}
    (h : Event.commit a e w m ∈ (processFile env f).1) : False := by
  unfold processFile at h
  cases hs : env.sourceTree f with
  | none => rw [hs] at h; simp at h
  | some content =>
    rw [hs] at h
    cases h1 : env.mkdirOk (dirOf f) <;> cases h2 : env.readerOk f <;>
      cases h3 : env.readAllOk f <;> cases h4 : env.writeOk f <;>
      cases h5 : env.addOk f <;> simp_all

lemma processFiles_no_commit {env : MEnv} {fs : List String} {a e m : String}
    {w : Int} (h : Event.commit a e w m ∈ (processFiles env fs).1) : False := by
  induction fs with
  | nil => simp [processFiles] at h
  | cons f rest ih =>
    simp only [processFiles] at h
    by_cases hf : (processFile env f).2 = true
    · rw [if_pos hf] at h
      exact processFile_no_commit h
    · rw [if_neg hf] at h
      rcases List.mem_append.mp h with h' | h'
      · exact processFile_no_commit h'
      · exact ih h'

lemma processFileV2_no_commit {env : MEnv2} {f a e m : String} {w : Int}
    (h : Event.commit a e w m ∈ (processFileV2 env f).1) : False := by
  unfold processFileV2 at h
  cases hs : env.sourceTree f with
  | none => rw [hs] at h; simp at h
  | some content =>
    rw [hs] at h
    cases hl : env.liveResolve env.srcBranch f with
    | none =>
      cases h1 : env.mkdirOk (dirOf f) <;> simp_all
    | some live =>
      cases h1 : env.mkdirOk (dirOf f) <;> cases h2 : env.checkoutFileOk f <;>
        cases h3 : env.addOk f <;> simp_all

lemma processFilesV2_no_commit {env : MEnv2} {fs : List String} {a e m : String}
    {w : Int} (h : Event.commit a e w m ∈ (processFilesV2 env fs).1) : False := by
  induction fs with
  | nil => simp [processFilesV2] at h
  | cons f rest ih =>
    simp only [processFilesV2] at h
    by_cases hf : (processFileV2 env f).2 = true
    · rw [if_pos hf] at h
      exact processFileV2_no_commit h
    · rw [if_neg hf] at h
      rcases List.mem_append.mp h with h' | h'
      · exact processFileV2_no_commit h'
      · exact ih h'

/-- C4 (amended): in variant 1, every file content written during
materialization is the content of that path in the start-of-run source tree
snapshot; in variant 2 the copy shells out to
`git checkout <source> -- <file>`, re-resolving the source branch at copy
time, so every content written is the content of that path at the live tip
of the source branch — which the counterexample shows can differ from the
snapshot. -/
theorem spec_C4_content_source (env : MEnv) (env₂ : MEnv2)
    (groups groups₂ : List BranchGroup) (p : String) (c : List Nat) :
    (Event.writeFile p c ∈ (runMaterializer env groups).trace →
        env.sourceTree p = some c)
    ∧ (Event.writeFile p c ∈ (runMaterializerV2 env₂ groups₂).trace →
        env₂.liveResolve env₂.srcBranch p = some c) := by
  constructor
  · intro h
    rcases runMaterializer_trace_shape h with ⟨j, g, _, hm⟩ | hck
    · rcases processGroup_trace_shape hm with hfm | h' | h' | h' | h' | h'
      · exact processFiles_writeFile_mem hfm
      · exact absurd h' (by simp)
      · exact absurd h' (by simp)
      · exact absurd h' (by simp)
      · exact absurd h' (by simp)
      · exact absurd h' (by simp)
    · exact absurd hck (by simp)
  · intro h
    rcases runMaterializerV2_trace_shape h with ⟨j, g, _, hm⟩ | hck
    · rcases processGroupV2_trace_shape hm with hfm | h' | h' | h' | h' | h'
      · exact processFilesV2_writeFile_mem hfm
      · exact absurd h' (by simp)
      · exact absurd h' (by simp)
      · exact absurd h' (by simp)
      · exact absurd h' (by simp)
      · exact absurd h' (by simp)
    · exact absurd hck (by simp)

/-- C4 counterexample: in a variant-2 run where the live tip of the source
branch has drifted from the start-of-run snapshot, the content written (and
staged for commit) is the live content `[2]`, not the snapshot content
`[1]` — the claim that content is never taken from a re-resolution of the
source branch fails. -/
theorem spec_C4_counterexample :
    Event.writeFile "a.txt" [2]
        ∈ (runMaterializerV2 liveDriftEnv2 [⟨"split_1", ["a.txt"]⟩]).trace
    ∧ liveDriftEnv2.sourceTree "a.txt" = some [1]
    ∧ Event.writeFile "a.txt" [1]
        ∉ (runMaterializerV2 liveDriftEnv2 [⟨"split_1", ["a.txt"]⟩]).trace := by
  decide

/-- Witness for C4 at a concrete succeeding variant-1 run: the content
written for `a.txt` is the snapshot content. -/
theorem spec_C4_content_source_witness :
    okEnv.sourceTree "a.txt" = some [1] :=
  (spec_C4_content_source okEnv liveDriftEnv2 [⟨"split_1", ["a.txt"]⟩] []
    "a.txt" [1]).1 (by decide)

/-- C5 (amended): in variant 1 every commit carries the repository's
configured user name and email and the source commit's author timestamp; in
variant 2 every commit carries the hardcoded author `go-git-user`
`go-git@example.com` and the current time, ignoring both the configured
identity and the source commit's timestamp. -/
theorem spec_C5_commit_identity (env : MEnv) (env₂ : MEnv2)
    (groups groups₂ : List BranchGroup) (a e : String) (w : Int) (m : String) :
    (Event.commit a e w m ∈ (runMaterializer env groups).trace →
        a = env.userName ∧ e = env.userEmail ∧ w = env.sourceAuthorWhen)
    ∧ (Event.commit a e w m ∈ (runMaterializerV2 env₂ groups₂).trace →
        a = "go-git-user" ∧ e = "go-git@example.com" ∧ w = env₂.now) := by
  constructor
  · intro h
    rcases runMaterializer_trace_shape h with ⟨j, g, _, hm⟩ | hck
    · rcases processGroup_trace_shape hm with hfm | h' | h' | h' | h' | h'
      · exact absurd hfm (fun hc => processFiles_no_commit hc)
      · exact absurd h' (by simp)
      · exact absurd h' (by simp)
      · exact absurd h' (by simp)
      · exact absurd h' (by simp)
      · rw [Event.commit.injEq] at h'
        exact ⟨h'.1, h'.2.1, h'.2.2.1⟩
    · exact absurd hck (by simp)
  · intro h
    rcases runMaterializerV2_trace_shape h with ⟨j, g, _, hm⟩ | hck
    · rcases processGroupV2_trace_shape hm with hfm | h' | h' | h' | h' | h'
      · exact absurd hfm (fun hc => processFilesV2_no_commit hc)
      · exact absurd h' (by simp)
      · exact absurd h' (by simp)
      · exact absurd h' (by simp)
      · exact absurd h' (by simp)
      · rw [Event.commit.injEq] at h'
        exact ⟨h'.1, h'.2.1, h'.2.2.1⟩
    · exact absurd hck (by simp)

/-- C5 counterexample: a variant-2 run that reaches the commit step commits
as `go-git-user` with the current time 99, although the repository's
configured user is `alice` and the source commit's author time is 5 — the
claim that author identity comes from the repository config and the
timestamp from the source commit fails. -/
theorem spec_C5_counterexample :
    Event.commit "go-git-user" "go-git@example.com" 99 (commitMessage ["a.txt"])
        ∈ (runMaterializerV2 liveDriftEnv2 [⟨"split_1", ["a.txt"]⟩]).trace
    ∧ liveDriftEnv2.configUserName = "alice"
    ∧ "go-git-user" ≠ "alice"
    ∧ liveDriftEnv2.sourceAuthorWhen = 5
    ∧ liveDriftEnv2.now = 99
    ∧ (99 : Int) ≠ 5 := by
  decide

/-- Witness for C5 at a concrete succeeding variant-1 run: the commit event
carries the configured identity and the source commit's author time. -/
theorem spec_C5_commit_identity_witness :
    "alice" = okEnv.userName ∧ "alice@example.com" = okEnv.userEmail
    ∧ (5 : Int) = okEnv.sourceAuthorWhen :=
  (spec_C5_commit_identity okEnv liveDriftEnv2 [⟨"split_1", ["a.txt"]⟩] []
    "alice" "alice@example.com" 5 (commitMessage ["a.txt"])).1 (by decide)

/-- C1 (amended): the restore of the originally recorded branch is attempted
exactly when the group loop finishes without a fatal error — it is then the
final trace action whether or not it itself succeeds, and the run succeeds
when it does; a fatal error inside the group loop (failed base checkout,
branch creation, stage, or commit) exits the process at once
(`log.Fatalf`), leaving only the loop's own actions in the trace with no
restore attempt appended. -/
theorem spec_C1_restore_reach (env : MEnv) (groups : List BranchGroup)
    (hh : env.headOk = true) (hw : env.worktreeOk = true) :
    ((processGroups env 0 groups).2 = true →
        runMaterializer env groups
          = RunResult.fatal (processGroups env 0 groups).1)
    ∧ ((processGroups env 0 groups).2 = false →
        (runMaterializer env groups).trace
          = (processGroups env 0 groups).1
              ++ [Event.checkoutBranch env.currentBranch]
        ∧ (env.restoreOk = true →
            runMaterializer env groups
              = RunResult.ok ((processGroups env 0 groups).1
                  ++ [Event.checkoutBranch env.currentBranch]))) := by
  constructor
  · intro hf
    simp [runMaterializer, hh, hw, hf]
  · intro hf
    constructor
    · by_cases hr : env.restoreOk = true <;>
        simp [runMaterializer, hh, hw, hf, hr, RunResult.trace]
    · intro hr
      simp [runMaterializer, hh, hw, hf, hr]

/-- C1 counterexample: when the base-branch checkout of the first group
fails, the run is fatal and its whole trace is the single failed checkout of
`main` — the originally recorded branch `dev` is never checked out before
the process exits, refuting the claim that the restore is attempted on every
fatal stop. -/
theorem spec_C1_counterexample :
    runMaterializer failBaseEnv [⟨"split_1", ["a.txt"]⟩]
      = RunResult.fatal [Event.checkoutBranch "main"]
    ∧ failBaseEnv.currentBranch = "dev"
    ∧ Event.checkoutBranch "dev"
        ∉ (runMaterializer failBaseEnv [⟨"split_1", ["a.txt"]⟩]).trace := by
  decide

/-- Witness for C1 at a concrete fully succeeding run: the trace ends with
the checkout of the originally recorded branch. -/
theorem spec_C1_restore_reach_witness :
    (runMaterializer okEnv [⟨"split_1", ["a.txt"]⟩]).trace
      = (processGroups okEnv 0 [⟨"split_1", ["a.txt"]⟩]).1
          ++ [Event.checkoutBranch okEnv.currentBranch] :=
  ((spec_C1_restore_reach okEnv [⟨"split_1", ["a.txt"]⟩] rfl rfl).2
    (by decide)).1

/-- C6 (amended): after the editor exits the temporary plan file is read
back; the deletion happens only when the read succeeds (and never affects
the outcome — the `os.Remove` result is discarded, as the bridge does not
depend on it); when the read fails the run is fatal at once and the file is
not deleted. -/
theorem spec_C6_tmpfile_cleanup (env : EditorEnv) (lines : List Line) :
    (∀ edited, env.readResult = some edited →
        env.createTmpOk = true → env.writeTmpOk = true → env.editorRunOk = true →
        Event.removeTmp ∈ (editorBridge env lines).1
        ∧ (editorBridge env lines).2 = some edited)
    ∧ (env.readResult = none →
        Event.removeTmp ∉ (editorBridge env lines).1
        ∧ (editorBridge env lines).2 = none)
    ∧ (∀ b : Bool,
        editorBridge { env with removeOk := b } lines = editorBridge env lines) := by
  refine ⟨?_, ?_, ?_⟩
  · intro edited hr hc hwt he
    simp [editorBridge, hr, hc, hwt, he]
  · intro hr
    by_cases hc : env.createTmpOk = false
    · simp [editorBridge, hc]
    · by_cases hwt : env.writeTmpOk = false
      · simp [editorBridge, hc, hwt]
      · by_cases he : env.editorRunOk = false
        · simp [editorBridge, hc, hwt, he]
        · simp [editorBridge, hc, hwt, he, hr]
  · intro b
    simp [editorBridge]

/-- C6 counterexample: when the read of the edited file fails, the bridge is
fatal at the read and the temp file is never removed — the claim that the
file is deleted regardless of read outcome fails. -/
theorem spec_C6_counterexample :
    editorBridge failReadEEnv []
      = ([Event.createTmp, Event.writeTmp [], Event.launchEditor,
          Event.readTmp], none)
    ∧ Event.removeTmp ∉ (editorBridge failReadEEnv []).1 := by
  decide

/-- Witness for C6 at a concrete succeeding bridge session: the file is
removed after a successful read and the edited content is returned. -/
theorem spec_C6_tmpfile_cleanup_witness :
    Event.removeTmp ∈ (editorBridge okEEnv []).1
    ∧ (editorBridge okEEnv []).2 = some [[]] :=
  (spec_C6_tmpfile_cleanup okEEnv []).1 [[]] rfl rfl rfl rfl

/-- C7: a file listed in a group but absent from the source tree snapshot
contributes exactly one warning and processing continues with the remaining
files unchanged (in both variants); every other failure inside the file loop
(directory creation, content read, file write, staging) makes the loop
fatal — the missing-file skip is the only soft path. -/
theorem spec_C7_missing_file_skip (env : MEnv) (env₂ : MEnv2) (f : String)
    (fs : List String) :
    (env.sourceTree f = none →
        processFiles env (f :: fs)
          = (Event.warnMissing f :: (processFiles env fs).1,
             (processFiles env fs).2))
    ∧ (∀ c, env.sourceTree f = some c →
        (env.mkdirOk (dirOf f) = false ∨ env.readerOk f = false
          ∨ env.readAllOk f = false ∨ env.writeOk f = false
          ∨ env.addOk f = false) →
        (processFiles env (f :: fs)).2 = true)
    ∧ (env₂.sourceTree f = none →
        processFilesV2 env₂ (f :: fs)
          = (Event.warnMissing f :: (processFilesV2 env₂ fs).1,
             (processFilesV2 env₂ fs).2)) := by
  refine ⟨?_, ?_, ?_⟩
  · intro hs
    simp [processFiles, processFile, hs]
  · intro c hs hbad
    cases h1 : env.mkdirOk (dirOf f) <;> cases h2 : env.readerOk f <;>
      cases h3 : env.readAllOk f <;> cases h4 : env.writeOk f <;>
      cases h5 : env.addOk f <;>
      simp_all [processFiles, processFile]
  · intro hs
    simp [processFilesV2, processFileV2, hs]

/-- Witness for C7 at a concrete session: `b.txt` is not in the snapshot, so
the loop emits one warning and continues with the remaining file. -/
theorem spec_C7_missing_file_skip_witness :
    processFiles okEnv ["b.txt", "a.txt"]
      = (Event.warnMissing "b.txt" :: (processFiles okEnv ["a.txt"]).1,
         (processFiles okEnv ["a.txt"]).2) :=
  (spec_C7_missing_file_skip okEnv liveDriftEnv2 "b.txt" ["a.txt"]).1 (by decide)

/-- C8: a group whose edited file list is empty is skipped entirely — its
whole contribution to the trace is one skip notice, no checkout, branch
creation or commit is attempted, no error is raised, and the loop continues
with the next group at the next iteration (in both variants). -/
theorem spec_C8_empty_group_skip (env : MEnv) (env₂ : MEnv2) (i : Nat)
    (g : BranchGroup) (gs : List BranchGroup) (hg : g.files = []) :
    processGroup env i g = ([Event.skipEmptyGroup g.name], false)
    ∧ processGroups env i (g :: gs)
        = (Event.skipEmptyGroup g.name :: (processGroups env (i + 1) gs).1,
           (processGroups env (i + 1) gs).2)
    ∧ processGroupV2 env₂ i g = ([Event.skipEmptyGroup g.name], false)
    ∧ processGroupsV2 env₂ i (g :: gs)
        = (Event.skipEmptyGroup g.name :: (processGroupsV2 env₂ (i + 1) gs).1,
           (processGroupsV2 env₂ (i + 1) gs).2) := by
  have h1 : processGroup env i g = ([Event.skipEmptyGroup g.name], false) := by
    simp [processGroup, hg]
  have h2 : processGroupV2 env₂ i g = ([Event.skipEmptyGroup g.name], false) := by
    simp [processGroupV2, hg]
  refine ⟨h1, ?_, h2, ?_⟩
  · simp [processGroups, h1]
  · simp [processGroupsV2, h2]

/-- Witness for C8 at a concrete session and an empty group. -/
theorem spec_C8_empty_group_skip_witness :
    processGroup okEnv 0 ⟨"split_1", []⟩
      = ([Event.skipEmptyGroup "split_1"], false) :=
  (spec_C8_empty_group_skip okEnv liveDriftEnv2 0 ⟨"split_1", []⟩ [] rfl).1

/-- C10: when the collected diff-file list is empty the run returns
successfully at that point with an empty trace — no temporary plan file is
written, the editor is never launched, no branch is created, and no checkout
touches the working tree. -/
theorem spec_C10_empty_diff_early_exit (env : PipelineEnv)
    (h : collectDiffFiles env.changes = []) :
    runAfterSnapshots env = RunResult.ok []
    ∧ (∀ lines, Event.writeTmp lines ∉ (runAfterSnapshots env).trace)
    ∧ Event.launchEditor ∉ (runAfterSnapshots env).trace
    ∧ (∀ name hash, Event.createBranch name hash ∉ (runAfterSnapshots env).trace)
    ∧ (∀ b, Event.checkoutBranch b ∉ (runAfterSnapshots env).trace) := by
  have he : runAfterSnapshots env = RunResult.ok [] := by
    simp [runAfterSnapshots, h]
  refine ⟨he, ?_, ?_, ?_, ?_⟩ <;> simp [he, RunResult.trace]

/-- Witness for C10 at a pipeline session whose only reported change is a
deletion: the diff-file list is empty and the run stops there. -/
theorem spec_C10_empty_diff_early_exit_witness :
    runAfterSnapshots emptyDiffPEnv = RunResult.ok [] :=
  (spec_C10_empty_diff_early_exit emptyDiffPEnv (by decide)).1

end GitSplit
